import Mathlib

/-!
# PDM capture firmware (`pdmtest_uart_raw_data/src/main.c`)

A shallow embedding of the acquisition controller (`pdm_start`, `pdm_stop`,
`pdm_evt_handler`, `butt_handler`, `switch_buffer`), of the hex dump
(`dump_buffer_n`) and of the amplification pass (`pcm_amp`), followed by the
properties of the specification that were checked against them.
-/

namespace PdmTest

/-! ## Build-time constants -/

/-- The macro `AUDIO_SAMPLE_RATE`, defined as 16000. -/
def AUDIO_SAMPLE_RATE : Nat := 16000

/-- The macro `AUDIO_SAMPLE_SIZE`, defined as `sizeof(int16_t)`. -/
def AUDIO_SAMPLE_SIZE : Nat := 2

/-- The macro `AUDIO_BLOCK_SIZE`, defined as `((AUDIO_SAMPLE_RATE * AUDIO_SAMPLE_SIZE) * 2)`,
a number of bytes. -/
def AUDIO_BLOCK_SIZE : Nat := (AUDIO_SAMPLE_RATE * AUDIO_SAMPLE_SIZE) * 2

/-- The macro `PCM_AMP`, defined as 100. -/
def PCM_AMP : Int := 100

/-- The constant `INT16_MIN` of `<stdint.h>`. -/
def INT16_MIN : Int := -32768

/-- The constant `INT16_MAX` of `<stdint.h>`. -/
def INT16_MAX : Int := 32767

/-- The null pointer; addresses are natural numbers. -/
def NULL : Nat := 0

/-- The enumerator `NRFX_PDM_NO_ERROR`, the first of `nrfx_pdm_error_t`. -/
def NRFX_PDM_NO_ERROR : Nat := 0

/-! ## Acquisition controller -/

/-- The pool as `main` sets it up before any event: `N_BUFF` is the `#define N_BUFF`
(6 in the source) and `g_buff i` is the address stored in `g_buff[i]`. -/
structure Pool where
  N_BUFF : Nat
  g_buff : Nat → Nat

/-- Calls that leave the controller, in the order they are made. -/
inductive Call where
  | nrfx_pdm_start
  | nrfx_pdm_stop
  | nrfx_pdm_buffer_set (buffer : Nat) (buffer_length : Nat)
  | k_sem_give
  | LOG_ERR (error : Nat)
  deriving DecidableEq, Repr

/-- The mutable globals of the controller: the cursor `g_buffsel` (a `uint8_t`), the flag
`g_pdm_stopped`, the count of the semaphore `data_ready` (limit 1), and the trace of
outgoing calls, oldest first. -/
structure Ctl where
  g_buffsel : Nat
  g_pdm_stopped : Bool
  data_ready : Nat
  calls : List Call
  deriving DecidableEq, Repr

/-- The fields of `nrfx_pdm_evt_t` the handler reads. -/
structure nrfx_pdm_evt_t where
  buffer_requested : Bool
  buffer_released : Nat
  error : Nat
  deriving DecidableEq, Repr

/-- Globals at program start: `g_buffsel = 0`, `g_pdm_stopped = 0`,
`K_SEM_DEFINE(data_ready, 0, 1)`. -/
def Ctl.init : Ctl :=
  { g_buffsel := 0, g_pdm_stopped := false, data_ready := 0, calls := [] }

/-- Number of `k_sem_give(&data_ready)` calls made so far. -/
def Ctl.gives (s : Ctl) : Nat := s.calls.count Call.k_sem_give

/-- The function `switch_buffer`: `(cur + 1) >= N_BUFF ? 0 : (cur + 1)`, returned as a
`uint8_t`. -/
def switch_buffer (p : Pool) (cur : Nat) : Nat :=
  (if cur + 1 ≥ p.N_BUFF then 0 else cur + 1) % 256

/-- The call `k_sem_give(&data_ready)`: the count goes up by one unless it is at the
limit 1. -/
def k_sem_give (s : Ctl) : Ctl :=
  { s with data_ready := if s.data_ready < 1 then s.data_ready + 1 else s.data_ready,
           calls := s.calls ++ [Call.k_sem_give] }

/-- The function `pdm_stop`: `nrfx_pdm_stop(); g_pdm_stopped = 1;`. -/
def pdm_stop (s : Ctl) : Ctl :=
  { s with calls := s.calls ++ [Call.nrfx_pdm_stop], g_pdm_stopped := true }

/-- The function `pdm_start`: `g_buffsel = 0; nrfx_pdm_start(); g_pdm_stopped = 0;`. -/
def pdm_start (s : Ctl) : Ctl :=
  { s with g_buffsel := 0, calls := s.calls ++ [Call.nrfx_pdm_start], g_pdm_stopped := false }

/-- The function `pdm_evt_handler`: on an error, log, stop and give; otherwise hand out
`g_buff[g_buffsel]` and switch buffer when one is requested, then stop and give when the
released buffer is `g_buff[N_BUFF-1]` and the controller is not stopped. -/
def pdm_evt_handler (p : Pool) (s : Ctl) (p_evt : nrfx_pdm_evt_t) : Ctl :=
  if p_evt.error ≠ NRFX_PDM_NO_ERROR then
    k_sem_give (pdm_stop { s with calls := s.calls ++ [Call.LOG_ERR p_evt.error] })
  else
    let s1 : Ctl :=
      if p_evt.buffer_requested then
        { s with
            calls := s.calls ++
              [Call.nrfx_pdm_buffer_set (p.g_buff s.g_buffsel) (AUDIO_BLOCK_SIZE / AUDIO_SAMPLE_SIZE)],
            g_buffsel := switch_buffer p s.g_buffsel }
      else s
    if p_evt.buffer_released ≠ NULL then
      if p_evt.buffer_released = p.g_buff (p.N_BUFF - 1) ∧ s1.g_pdm_stopped = false then
        k_sem_give (pdm_stop s1)
      else s1
    else s1

/-- The function `butt_handler`: `if (state == 1) pdm_start();`. -/
def butt_handler (s : Ctl) (state _has_changed : Nat) : Ctl :=
  if state = 1 then pdm_start s else s

/-- One entry into the controller from outside. -/
inductive Op where
  | start
  | stop
  | evt (e : nrfx_pdm_evt_t)
  deriving DecidableEq, Repr

/-- Effect of one entry. -/
def step (p : Pool) (s : Ctl) : Op → Ctl
  | Op.start => pdm_start s
  | Op.stop => pdm_stop s
  | Op.evt e => pdm_evt_handler p s e

/-- Effect of a sequence of entries, first to last. -/
def run (p : Pool) (s : Ctl) (ops : List Op) : Ctl := ops.foldl (step p) s

/-- Effect of a sequence of peripheral events, first to last. -/
def runEvents (p : Pool) (s : Ctl) (evs : List nrfx_pdm_evt_t) : Ctl :=
  evs.foldl (pdm_evt_handler p) s

/-- An error-free event that only requests a buffer. -/
def evtRequested : nrfx_pdm_evt_t :=
  { buffer_requested := true, buffer_released := NULL, error := NRFX_PDM_NO_ERROR }

/-- An error-free event that only releases the buffer at address `b`. -/
def evtReleased (b : Nat) : nrfx_pdm_evt_t :=
  { buffer_requested := false, buffer_released := b, error := NRFX_PDM_NO_ERROR }

/-- The events of one full session: `N_BUFF` requests, then the release of
`g_buff[0]`, ..., `g_buff[N_BUFF-1]` in that order. -/
def sessionEvents (p : Pool) : List nrfx_pdm_evt_t :=
  List.replicate p.N_BUFF evtRequested ++
    (List.range p.N_BUFF).map (fun i => evtReleased (p.g_buff i))

/-- The pool of the source: six buffers at distinct non-null addresses. -/
def pool6 : Pool := { N_BUFF := 6, g_buff := fun i => 0x1000 * (i + 1) }

/-- A pool of two buffers, as in the specification's example. -/
def pool2 : Pool := { N_BUFF := 2, g_buff := fun i => 0x1000 * (i + 1) }

/-- An event that carries no error and does not release the last buffer. -/
def quietEvent (p : Pool) (e : nrfx_pdm_evt_t) : Prop :=
  e.error = NRFX_PDM_NO_ERROR ∧
    (e.buffer_released = NULL ∨ e.buffer_released ≠ p.g_buff (p.N_BUFF - 1))

/-- The session without its last event. -/
def sessionBody (p : Pool) : List nrfx_pdm_evt_t :=
  List.replicate p.N_BUFF evtRequested ++
    (List.range (p.N_BUFF - 1)).map (fun i => evtReleased (p.g_buff i))


/-! ## Hex dump -/

/-- What `dump_buffer_n` writes to the console, one item per library call:
a `printf` of a fixed string, a `putchar`, or `printf("%04x ", v)`. -/
inductive Out where
  | printf_str (s : String)
  | putchar (c : Char)
  | printf_hex (v : Nat)
  deriving DecidableEq, Repr

/-- The start marker, `printf("\n*** START OF BUFFER DUMP ***\n")`. -/
def startMarker : Out := Out.printf_str "\n*** START OF BUFFER DUMP ***\n"

/-- The end marker, `printf("\n*** END OF BUFFER DUMP ***\n\n")`. -/
def endMarker : Out := Out.printf_str "\n*** END OF BUFFER DUMP ***\n\n"

/-- The inner loop of `dump_buffer_n`, `for (j; j < len / sizeof(int16_t); ++j)`, entered at
index `j` with `k` iterations to go; `out` is what has been written so far. Reading
`buff[i][j]` outside the arrays gives `none`. -/
def dump_inner (buff : List (List Nat)) (i : Nat) : Nat → Nat → List Out → Option (List Out)
  | _, 0, out => some out
  | j, k + 1, out =>
    match buff[i]? with
    | none => none
    | some row =>
      match row[j]? with
      | none => none
      | some v =>
        dump_inner buff i (j + 1) k
          ((if j % 8 = 0 then out ++ [Out.putchar '\n'] else out) ++ [Out.printf_hex v])

/-- The outer loop of `dump_buffer_n`, `for (i; i < n; ++i)`, entered at buffer `i` with `k`
iterations to go. -/
def dump_outer (buff : List (List Nat)) (len : Nat) : Nat → Nat → List Out → Option (List Out)
  | _, 0, out => some out
  | i, k + 1, out =>
    match dump_inner buff i 0 (len / 2) out with
    | none => none
    | some out1 => dump_outer buff len (i + 1) k (out1 ++ [Out.putchar '\n'])

/-- The function `dump_buffer_n(buff, len, n)`: `len` is a number of bytes, `n` a number of
buffers. -/
def dump_buffer_n (buff : List (List Nat)) (len n : Nat) : Option (List Out) :=
  match dump_outer buff len 0 n [startMarker] with
  | none => none
  | some out => some (out ++ [endMarker])

/-- The sample values among the items written, in the order written. -/
def printedSamples (out : List Out) : List Nat :=
  out.filterMap (fun o => match o with
    | Out.printf_hex v => some v
    | _ => none)

/-- Layout of consecutive samples whose in-buffer indices start at `j`: each sample is
written as one hex item, with a line break before it when its index is a multiple of 8. -/
def layoutSamples : Nat → List Nat → List Out
  | _, [] => []
  | j, v :: vs =>
    (if j % 8 = 0 then [Out.putchar '\n'] else []) ++ [Out.printf_hex v] ++
      layoutSamples (j + 1) vs

/-- Layout of whole buffers: the samples of each buffer from index 0, then a line break. -/
def layoutBuffers : List (List Nat) → List Out
  | [] => []
  | row :: rows => layoutSamples 0 row ++ [Out.putchar '\n'] ++ layoutBuffers rows

/-- The first `len / 2` samples of each of the first `n` buffers. -/
def requestedSamples (buff : List (List Nat)) (len n : Nat) : List (List Nat) :=
  (buff.take n).map (fun row => row.take (len / 2))

/-! ## Amplification

`pcm_amp` computes in C `float`, which on the target is IEEE 754 binary32 with
round-to-nearest-even. Finite values are carried as the rationals they denote, and every
arithmetic result is rounded by `F32.round`. Zero carries no sign: the only division by
zero in `pcm_amp` has the divisor `(float)largest` with `largest = 0`, which is `+0.0`. -/

/-- A value of C `float`: a finite number, an infinity, or not-a-number. -/
inductive F32 where
  | fin (q : ℚ)
  | pinf
  | ninf
  | nan
  deriving DecidableEq

/-- Round to the nearest integer, ties to the even one. -/
def roundHalfEven (x : ℚ) : Int :=
  if x - ⌊x⌋ < 1 / 2 then ⌊x⌋
  else if 1 / 2 < x - ⌊x⌋ then ⌊x⌋ + 1
  else if ⌊x⌋ % 2 = 0 then ⌊x⌋ else ⌊x⌋ + 1

/-- Exponent of the unit in the last place of the binary32 values nearest to `q`:
24 significant bits, the exponent of the leading bit not below -126. -/
def F32.ulpExp (q : ℚ) : Int := max (Int.log 2 |q|) (-126) - 23

/-- The binary32 value nearest to the rational `q`, ties to even; results of magnitude
`2^128` or more are infinite. -/
def F32.round (q : ℚ) : F32 :=
  let r : ℚ := roundHalfEven (q / 2 ^ F32.ulpExp q) * 2 ^ F32.ulpExp q
  if 2 ^ 128 ≤ r then F32.pinf
  else if r ≤ -2 ^ 128 then F32.ninf
  else F32.fin r

/-- Conversion of an integer to `float`. -/
def F32.ofInt (i : Int) : F32 := F32.round i

/-- Division of `float` values. -/
def F32.div : F32 → F32 → F32
  | F32.fin a, F32.fin b =>
    if b = 0 then (if a = 0 then F32.nan else if 0 < a then F32.pinf else F32.ninf)
    else F32.round (a / b)
  | F32.fin _, F32.pinf => F32.fin 0
  | F32.fin _, F32.ninf => F32.fin 0
  | F32.pinf, F32.fin b => if 0 ≤ b then F32.pinf else F32.ninf
  | F32.ninf, F32.fin b => if 0 ≤ b then F32.ninf else F32.pinf
  | _, _ => F32.nan

/-- Product of `float` values. -/
def F32.mul : F32 → F32 → F32
  | F32.fin a, F32.fin b => F32.round (a * b)
  | F32.fin a, F32.pinf => if a = 0 then F32.nan else if 0 < a then F32.pinf else F32.ninf
  | F32.fin a, F32.ninf => if a = 0 then F32.nan else if 0 < a then F32.ninf else F32.pinf
  | F32.pinf, F32.fin b => if b = 0 then F32.nan else if 0 < b then F32.pinf else F32.ninf
  | F32.ninf, F32.fin b => if b = 0 then F32.nan else if 0 < b then F32.ninf else F32.pinf
  | F32.pinf, F32.pinf => F32.pinf
  | F32.ninf, F32.ninf => F32.pinf
  | F32.pinf, F32.ninf => F32.ninf
  | F32.ninf, F32.pinf => F32.ninf
  | _, _ => F32.nan

/-- The comparison `a > b` of `float` values; false when either is not-a-number. -/
def F32.gt : F32 → F32 → Bool
  | F32.fin a, F32.fin b => decide (b < a)
  | F32.pinf, F32.fin _ => true
  | F32.pinf, F32.ninf => true
  | F32.fin _, F32.ninf => true
  | _, _ => false

/-- The integral part of a finite `float`, fraction discarded (truncation toward zero). -/
def truncToInt (q : ℚ) : Int := if 0 ≤ q then ⌊q⌋ else ⌈q⌉

/-- Why a run of `pcm_amp` has no defined result. -/
inductive Fault where
  | out_of_bounds (index : Nat)
  | not_int16 (index : Nat) (value : F32)
  deriving DecidableEq

/-- The cast `(int16_t)x` of a `float` at sample `index`: the fraction is discarded, and the
conversion is defined only when the integral part fits `int16_t`. -/
def F32.toInt16 (index : Nat) : F32 → Except Fault Int
  | F32.fin q =>
    if INT16_MIN ≤ truncToInt q ∧ truncToInt q ≤ INT16_MAX then Except.ok (truncToInt q)
    else Except.error (Fault.not_int16 index (F32.fin q))
  | x => Except.error (Fault.not_int16 index x)

/-- The first loop of `pcm_amp` (the peak scan), entered at index `i` with `k` iterations to
go: bumps a sample equal to `INT16_MIN`, then takes the sample as `largest` when its
absolute value exceeds `largest`. -/
def pcm_amp_scan : Nat → Nat → List Int → Int → Except Fault (List Int × Int)
  | _, 0, samples, largest => Except.ok (samples, largest)
  | i, k + 1, samples, largest =>
    match samples[i]? with
    | none => Except.error (Fault.out_of_bounds i)
    | some x =>
      let x1 := if x = INT16_MIN then x + 1 else x
      pcm_amp_scan (i + 1) k (if x = INT16_MIN then samples.set i x1 else samples)
        (if |x1| > largest then x1 else largest)

/-- The second loop of `pcm_amp`, `samples[i] = (int16_t)(samples[i] * mult)`, entered at
index `i` with `k` iterations to go. -/
def pcm_amp_scale (mult : F32) : Nat → Nat → List Int → Except Fault (List Int)
  | _, 0, samples => Except.ok samples
  | i, k + 1, samples =>
    match samples[i]? with
    | none => Except.error (Fault.out_of_bounds i)
    | some x =>
      match F32.toInt16 i (F32.mul (F32.ofInt x) mult) with
      | Except.error f => Except.error f
      | Except.ok y => pcm_amp_scale mult (i + 1) k (samples.set i y)

/-- The function `pcm_amp(samples, len, mult)`: the buffer after the call, or the fault that
leaves the call without a defined result. -/
def pcm_amp (samples : List Int) (len : Nat) (mult : F32) : Except Fault (List Int) :=
  match samples[0]? with
  | none => Except.error (Fault.out_of_bounds 0)
  | some first =>
    match pcm_amp_scan 0 len samples first with
    | Except.error f => Except.error f
    | Except.ok (samples1, largest) =>
      let highestmult := F32.div (F32.ofInt INT16_MAX) (F32.ofInt largest)
      pcm_amp_scale (if F32.gt mult highestmult then highestmult else mult) 0 len samples1

/-- The value `largest` holds when the peak scan of `pcm_amp` over the whole buffer ends. -/
def peakOf (samples : List Int) : Except Fault Int :=
  match samples[0]? with
  | none => Except.error (Fault.out_of_bounds 0)
  | some first =>
    match pcm_amp_scan 0 samples.length samples first with
    | Except.error f => Except.error f
    | Except.ok (_, largest) => Except.ok largest

/-- Number of `int16_t` samples in a pool buffer: `main` allocates each with
`calloc(AUDIO_BLOCK_SIZE, 1)`, that is `AUDIO_BLOCK_SIZE` bytes. -/
def bufferSamples : Nat := AUDIO_BLOCK_SIZE / AUDIO_SAMPLE_SIZE

/-- The call `pcm_amp(g_buff[i], AUDIO_BLOCK_SIZE, PCM_AMP)` of the consumer loop in `main`,
on a pool buffer with the given contents. -/
def main_pcm_amp (buffer : List Int) : Except Fault (List Int) :=
  pcm_amp buffer AUDIO_BLOCK_SIZE (F32.ofInt PCM_AMP)

/-- What the peak scan stores back for a sample: `INT16_MIN` is incremented, any other
value is kept. -/
def bumpMin (x : Int) : Int := if x = INT16_MIN then x + 1 else x

/-! ## Controller: auxiliary facts -/

theorem gives_k_sem_give (s : Ctl) : (k_sem_give s).gives = s.gives + 1 := by
  simp [Ctl.gives, k_sem_give, List.count_append]

theorem gives_pdm_stop (s : Ctl) : (pdm_stop s).gives = s.gives := by
  simp [Ctl.gives, pdm_stop, List.count_append]

theorem gives_pdm_start (s : Ctl) : (pdm_start s).gives = s.gives := by
  simp [Ctl.gives, pdm_start, List.count_append]

theorem switch_buffer_lt (p : Pool) (h : 0 < p.N_BUFF) (cur : Nat) :
    switch_buffer p cur < p.N_BUFF := by
  unfold switch_buffer
  split
  · simpa using h
  · exact lt_of_le_of_lt (Nat.mod_le _ _) (by omega)

theorem quiet_step (p : Pool) (s : Ctl) (e : nrfx_pdm_evt_t) (hq : quietEvent p e) :
    (pdm_evt_handler p s e).gives = s.gives ∧
      (pdm_evt_handler p s e).g_pdm_stopped = s.g_pdm_stopped ∧
      (pdm_evt_handler p s e).data_ready = s.data_ready := by
  obtain ⟨herr, hrel⟩ := hq
  unfold pdm_evt_handler
  rw [if_neg (by simpa using herr)]
  by_cases hreq : e.buffer_requested = true
  · rcases hrel with h0 | hne
    · simp [hreq, h0, Ctl.gives, List.count_append]
    · by_cases hn : e.buffer_released = NULL
      · simp [hreq, hn, Ctl.gives, List.count_append]
      · simp [hreq, hn, hne, Ctl.gives, List.count_append]
  · rcases hrel with h0 | hne
    · simp [hreq, h0]
    · by_cases hn : e.buffer_released = NULL
      · simp [hreq, hn]
      · simp [hreq, hn, hne]

theorem quiet_run (p : Pool) (evs : List nrfx_pdm_evt_t) (hq : ∀ e ∈ evs, quietEvent p e)
    (s : Ctl) :
    (runEvents p s evs).gives = s.gives ∧
      (runEvents p s evs).g_pdm_stopped = s.g_pdm_stopped ∧
      (runEvents p s evs).data_ready = s.data_ready := by
  induction evs generalizing s with
  | nil => simp [runEvents]
  | cons e rest ih =>
    have h1 := quiet_step p s e (hq e (List.mem_cons_self _ _))
    have h2 := ih (fun x hx => hq x (List.mem_cons_of_mem _ hx)) (pdm_evt_handler p s e)
    simp only [runEvents, List.foldl_cons] at h2 ⊢
    exact ⟨h2.1.trans h1.1, h2.2.1.trans h1.2.1, h2.2.2.trans h1.2.2⟩

theorem sessionEvents_eq (p : Pool) (h : 1 ≤ p.N_BUFF) :
    sessionEvents p = sessionBody p ++ [evtReleased (p.g_buff (p.N_BUFF - 1))] := by
  unfold sessionEvents sessionBody
  obtain ⟨n, hn⟩ : ∃ n, p.N_BUFF = n + 1 := ⟨p.N_BUFF - 1, by omega⟩
  rw [hn, List.range_succ]
  simp

theorem sessionBody_length (p : Pool) : (sessionBody p).length = 2 * p.N_BUFF - 1 := by
  simp [sessionBody]; omega

theorem sessionBody_quiet (p : Pool)
    (hd : ∀ i j, i < p.N_BUFF → j < p.N_BUFF → i ≠ j → p.g_buff i ≠ p.g_buff j) :
    ∀ e ∈ sessionBody p, quietEvent p e := by
  intro e he
  simp only [sessionBody, List.mem_append, List.mem_replicate, List.mem_map,
    List.mem_range] at he
  rcases he with ⟨_, rfl⟩ | ⟨i, hi, rfl⟩
  · exact ⟨rfl, Or.inl rfl⟩
  · exact ⟨rfl, Or.inr (hd i (p.N_BUFF - 1) (by omega) (by omega) (by omega))⟩

theorem last_release_step (p : Pool) (s : Ctl) (hs : s.g_pdm_stopped = false)
    (hnn : p.g_buff (p.N_BUFF - 1) ≠ NULL) :
    pdm_evt_handler p s (evtReleased (p.g_buff (p.N_BUFF - 1))) = k_sem_give (pdm_stop s) := by
  simp [pdm_evt_handler, evtReleased, hs, hnn]


theorem handler_cursor (p : Pool) (s : Ctl) (e : nrfx_pdm_evt_t) :
    (pdm_evt_handler p s e).g_buffsel =
      if e.error ≠ NRFX_PDM_NO_ERROR then s.g_buffsel
      else if e.buffer_requested = true then switch_buffer p s.g_buffsel else s.g_buffsel := by
  unfold pdm_evt_handler
  by_cases herr : e.error = NRFX_PDM_NO_ERROR
  · by_cases hreq : e.buffer_requested = true
    · simp only [herr, hreq, ne_eq, not_true_eq_false, if_false, if_true]
      split_ifs <;> simp [k_sem_give, pdm_stop]
    · simp only [herr, hreq, ne_eq, not_true_eq_false, if_false]
      split_ifs <;> simp [k_sem_give, pdm_stop]
  · simp [herr, k_sem_give, pdm_stop]

theorem step_cursor_lt (p : Pool) (hN : 0 < p.N_BUFF) (s : Ctl) (o : Op)
    (hs : s.g_buffsel < p.N_BUFF) : (step p s o).g_buffsel < p.N_BUFF := by
  cases o with
  | start => simpa [step, pdm_start] using hN
  | stop => simpa [step, pdm_stop] using hs
  | evt e =>
    have hsw := switch_buffer_lt p hN s.g_buffsel
    simp only [step, handler_cursor]
    split_ifs <;> assumption

theorem run_cursor_lt (p : Pool) (hN : 0 < p.N_BUFF) (ops : List Op) (s : Ctl)
    (hs : s.g_buffsel < p.N_BUFF) : (run p s ops).g_buffsel < p.N_BUFF := by
  induction ops generalizing s with
  | nil => simpa [run] using hs
  | cons o rest ih =>
    simp only [run, List.foldl_cons]
    exact ih (step p s o) (step_cursor_lt p hN s o hs)

/-! ## Controller: checked properties -/

/-- C2 (as stated, refuted): after a start and one buffer-requested event the cursor is 1,
and a second button press puts it back to 0, so the call is not a no-op. -/
theorem start_while_recording_resets_cursor :
    (runEvents pool6 (butt_handler Ctl.init 1 1) [evtRequested]).g_buffsel = 1 ∧
      (butt_handler (runEvents pool6 (butt_handler Ctl.init 1 1) [evtRequested]) 1 1).g_buffsel
        ≠ (runEvents pool6 (butt_handler Ctl.init 1 1) [evtRequested]).g_buffsel := by
  decide

/-- C2 (amended): a button press with `state == 1` always runs `pdm_start`, whatever the
state was: it sets the cursor to 0, clears `g_pdm_stopped`, makes exactly one outgoing call,
`nrfx_pdm_start`, and leaves the permit count of `data_ready` alone; the pair (flag, cursor)
is left as it was exactly when the cursor was already 0 and the flag already clear. -/
theorem butt_handler_restarts (s : Ctl) (has_changed : Nat) :
    butt_handler s 1 has_changed = pdm_start s ∧
      (butt_handler s 1 has_changed).g_buffsel = 0 ∧
      (butt_handler s 1 has_changed).g_pdm_stopped = false ∧
      (butt_handler s 1 has_changed).calls = s.calls ++ [Call.nrfx_pdm_start] ∧
      (butt_handler s 1 has_changed).data_ready = s.data_ready ∧
      (((butt_handler s 1 has_changed).g_pdm_stopped = s.g_pdm_stopped ∧
          (butt_handler s 1 has_changed).g_buffsel = s.g_buffsel) ↔
        (s.g_pdm_stopped = false ∧ s.g_buffsel = 0)) := by
  refine ⟨by simp [butt_handler], by simp [butt_handler, pdm_start],
    by simp [butt_handler, pdm_start], by simp [butt_handler, pdm_start],
    by simp [butt_handler, pdm_start], ?_⟩
  simp only [butt_handler, pdm_start, if_true]
  constructor
  · rintro ⟨h1, h2⟩
    exact ⟨h1.symm, h2.symm⟩
  · rintro ⟨h1, h2⟩
    exact ⟨h1.symm, h2.symm⟩

/-- C3: on an event whose error field is not `NRFX_PDM_NO_ERROR` the handler, from any state
and whatever the other two fields are, sets `g_pdm_stopped`, gives `data_ready` exactly once
(the calls made are the log line, `nrfx_pdm_stop` and one `k_sem_give`) and leaves the cursor
alone. -/
theorem error_event_stops_and_signals_once (p : Pool) (s : Ctl) (e : nrfx_pdm_evt_t)
    (herr : e.error ≠ NRFX_PDM_NO_ERROR) :
    (pdm_evt_handler p s e).g_pdm_stopped = true ∧
      (pdm_evt_handler p s e).gives = s.gives + 1 ∧
      (pdm_evt_handler p s e).calls =
        s.calls ++ [Call.LOG_ERR e.error, Call.nrfx_pdm_stop, Call.k_sem_give] ∧
      (pdm_evt_handler p s e).data_ready = max s.data_ready 1 ∧
      (pdm_evt_handler p s e).g_buffsel = s.g_buffsel := by
  unfold pdm_evt_handler
  rw [if_pos herr]
  refine ⟨by simp [k_sem_give, pdm_stop], ?_, by simp [k_sem_give, pdm_stop], ?_,
    by simp [k_sem_give, pdm_stop]⟩
  · simp [Ctl.gives, k_sem_give, pdm_stop, List.count_append]
  · simp only [k_sem_give, pdm_stop]
    split <;> omega

/-- C3 at a concrete input: an overflow error that also carries a request and a release,
arriving in a controller that is already stopped with the permit outstanding. -/
theorem error_event_stops_and_signals_once_witness :
    (1 : Nat) ≠ NRFX_PDM_NO_ERROR ∧
      (pdm_evt_handler pool6
          { g_buffsel := 3, g_pdm_stopped := true, data_ready := 1,
            calls := [Call.k_sem_give] }
          { buffer_requested := true, buffer_released := 0x6000, error := 1 }).gives = 2 :=
  ⟨by decide,
    (error_event_stops_and_signals_once pool6
      { g_buffsel := 3, g_pdm_stopped := true, data_ready := 1, calls := [Call.k_sem_give] }
      { buffer_requested := true, buffer_released := 0x6000, error := 1 } (by decide)).2.1⟩

/-- C4: for every pool of `N_BUFF >= 1` pairwise distinct buffers (the last one allocated),
a freshly started controller without permit that receives `N_BUFF` buffer-requested events
and then the release of buffers 0, ..., `N_BUFF - 1` ends stopped, with `data_ready` given
exactly once and holding one permit; after every proper prefix of the events nothing has
been given and the controller is not stopped. -/
theorem session_completes_once (p : Pool) (s0 : Ctl) (hN : 1 ≤ p.N_BUFF)
    (hd : ∀ i j, i < p.N_BUFF → j < p.N_BUFF → i ≠ j → p.g_buff i ≠ p.g_buff j)
    (hnn : p.g_buff (p.N_BUFF - 1) ≠ NULL) (hperm : s0.data_ready = 0) :
    (runEvents p (pdm_start s0) (sessionEvents p)).g_pdm_stopped = true ∧
      (runEvents p (pdm_start s0) (sessionEvents p)).gives = (pdm_start s0).gives + 1 ∧
      (runEvents p (pdm_start s0) (sessionEvents p)).data_ready = 1 ∧
      ∀ k, k < (sessionEvents p).length →
        (runEvents p (pdm_start s0) ((sessionEvents p).take k)).gives = (pdm_start s0).gives ∧
          (runEvents p (pdm_start s0) ((sessionEvents p).take k)).g_pdm_stopped = false := by
  have hq := sessionBody_quiet p hd
  have hbody := quiet_run p (sessionBody p) hq (pdm_start s0)
  have hst : (runEvents p (pdm_start s0) (sessionBody p)).g_pdm_stopped = false := by
    rw [hbody.2.1]; simp [pdm_start]
  have hfin : runEvents p (pdm_start s0) (sessionEvents p) =
      k_sem_give (pdm_stop (runEvents p (pdm_start s0) (sessionBody p))) := by
    rw [sessionEvents_eq p hN]
    simp only [runEvents, List.foldl_append, List.foldl_cons, List.foldl_nil]
    exact last_release_step p _ hst hnn
  refine ⟨?_, ?_, ?_, ?_⟩
  · rw [hfin]; simp [k_sem_give, pdm_stop]
  · rw [hfin, gives_k_sem_give, gives_pdm_stop, hbody.1]
  · rw [hfin]
    have hdr : (runEvents p (pdm_start s0) (sessionBody p)).data_ready = 0 := by
      rw [hbody.2.2]; simpa [pdm_start] using hperm
    simp [k_sem_give, pdm_stop, hdr]
  · intro k hk
    have hlen : k ≤ (sessionBody p).length := by
      rw [sessionEvents_eq p hN] at hk
      simp at hk
      omega
    have htake : (sessionEvents p).take k = (sessionBody p).take k := by
      rw [sessionEvents_eq p hN, List.take_append_of_le_length hlen]
    rw [htake]
    have hpre := quiet_run p ((sessionBody p).take k)
      (fun e he => hq e (List.mem_of_mem_take he)) (pdm_start s0)
    exact ⟨hpre.1, by rw [hpre.2.1]; simp [pdm_start]⟩

/-- C4 at the specification's example: pool size 2, events requested, requested,
released(buf0), released(buf1). -/
theorem session_completes_once_witness :
    (1 ≤ pool2.N_BUFF ∧ Ctl.init.data_ready = 0) ∧
      (runEvents pool2 (pdm_start Ctl.init)
          [evtRequested, evtRequested, evtReleased 0x1000, evtReleased 0x2000]).g_pdm_stopped
          = true ∧
      (runEvents pool2 (pdm_start Ctl.init)
          [evtRequested, evtRequested, evtReleased 0x1000, evtReleased 0x2000]).gives = 1 :=
  have h := session_completes_once pool2 Ctl.init (by decide)
    (by intro i j _ _ hij; simp only [pool2]; omega) (by decide) (by decide)
  ⟨⟨by decide, by decide⟩, h.1, h.2.1⟩

/-- C5: in a stopped controller an error-free event that releases the last buffer and
requests none changes nothing at all: flag, cursor, permit count and calls stay as they
were, so there is no second give. -/
theorem late_last_release_ignored (p : Pool) (s : Ctl) (e : nrfx_pdm_evt_t)
    (hs : s.g_pdm_stopped = true) (herr : e.error = NRFX_PDM_NO_ERROR)
    (hreq : e.buffer_requested = false) (hrel : e.buffer_released = p.g_buff (p.N_BUFF - 1)) :
    pdm_evt_handler p s e = s ∧ (pdm_evt_handler p s e).gives = s.gives := by
  have h : pdm_evt_handler p s e = s := by
    unfold pdm_evt_handler
    simp [herr, hreq, hrel, hs]
  exact ⟨h, by rw [h]⟩

/-- C5 at a concrete input: the state right after a completed session of the six-buffer
pool, receiving the release of `g_buff[5]` again. -/
theorem late_last_release_ignored_witness :
    (runEvents pool6 (pdm_start Ctl.init) (sessionEvents pool6)).g_pdm_stopped = true ∧
      (pdm_evt_handler pool6 (runEvents pool6 (pdm_start Ctl.init) (sessionEvents pool6))
          (evtReleased 0x6000)).gives = 1 :=
  ⟨by decide,
    (late_last_release_ignored pool6
      (runEvents pool6 (pdm_start Ctl.init) (sessionEvents pool6)) (evtReleased 0x6000)
      (by decide) rfl rfl (by decide)).2.trans (by decide)⟩

/-- C6 (as stated, refuted): in the six-buffer pool the sixth buffer-requested event of a
session finds the cursor at 5 and leaves it at 0, not at min(5 + 1, 6 - 1) = 5. -/
theorem requested_at_last_index_wraps :
    (runEvents pool6 (pdm_start Ctl.init) (List.replicate 5 evtRequested)).g_buffsel = 5 ∧
      (pdm_evt_handler pool6
          (runEvents pool6 (pdm_start Ctl.init) (List.replicate 5 evtRequested))
          evtRequested).g_buffsel = 0 ∧
      (pdm_evt_handler pool6
          (runEvents pool6 (pdm_start Ctl.init) (List.replicate 5 evtRequested))
          evtRequested).g_buffsel ≠ min (5 + 1) (pool6.N_BUFF - 1) := by
  decide

/-- C6 (amended): for a pool of at most 256 buffers and a cursor `c < N_BUFF`, an error-free
buffer-requested event hands `g_buff[c]` to `nrfx_pdm_buffer_set` and moves the cursor to
`(c + 1) mod N_BUFF`: one position forward, and from the last index back to 0. -/
theorem requested_advances_cursor_mod (p : Pool) (s : Ctl) (e : nrfx_pdm_evt_t)
    (hN : p.N_BUFF ≤ 256) (hc : s.g_buffsel < p.N_BUFF)
    (herr : e.error = NRFX_PDM_NO_ERROR) (hreq : e.buffer_requested = true) :
    (∃ rest, (pdm_evt_handler p s e).calls =
        s.calls ++ Call.nrfx_pdm_buffer_set (p.g_buff s.g_buffsel)
          (AUDIO_BLOCK_SIZE / AUDIO_SAMPLE_SIZE) :: rest) ∧
      (pdm_evt_handler p s e).g_buffsel = (s.g_buffsel + 1) % p.N_BUFF ∧
      switch_buffer p s.g_buffsel = (s.g_buffsel + 1) % p.N_BUFF := by
  have hsw : switch_buffer p s.g_buffsel = (s.g_buffsel + 1) % p.N_BUFF := by
    unfold switch_buffer
    by_cases hlast : s.g_buffsel + 1 ≥ p.N_BUFF
    · have : s.g_buffsel + 1 = p.N_BUFF := by omega
      rw [if_pos hlast, this, Nat.mod_self]
    · rw [if_neg hlast, Nat.mod_eq_of_lt (by omega), Nat.mod_eq_of_lt (by omega)]
  refine ⟨?_, ?_, hsw⟩
  · unfold pdm_evt_handler
    simp only [herr, hreq, ne_eq, not_true_eq_false, if_false, if_true]
    split_ifs <;> simp [k_sem_give, pdm_stop]
  · rw [← hsw, handler_cursor, if_neg (by simpa using herr), if_pos hreq]

/-- C6 (amended) at concrete inputs: cursor 5 of 6 goes to 0. -/
theorem requested_advances_cursor_mod_witness :
    (pool6.N_BUFF ≤ 256 ∧ (5 : Nat) < pool6.N_BUFF) ∧
      (pdm_evt_handler pool6
          { g_buffsel := 5, g_pdm_stopped := false, data_ready := 0, calls := [] }
          evtRequested).g_buffsel = (5 + 1) % pool6.N_BUFF :=
  ⟨⟨by decide, by decide⟩,
    (requested_advances_cursor_mod pool6
      { g_buffsel := 5, g_pdm_stopped := false, data_ready := 0, calls := [] }
      evtRequested (by decide) (by decide) rfl rfl).2.1⟩

/-- C8: for every pool with `N_BUFF >= 1`, in every state reached from the initial globals
by any sequence of `pdm_start`, `pdm_stop` and `pdm_evt_handler` calls (any events), the
cursor satisfies `g_buffsel < N_BUFF`. -/
theorem cursor_always_valid (p : Pool) (hN : 0 < p.N_BUFF) (ops : List Op) :
    (run p Ctl.init ops).g_buffsel < p.N_BUFF :=
  run_cursor_lt p hN ops Ctl.init (by simpa [Ctl.init] using hN)

/-- C8 at a concrete input: a start, seven requests, an error and a stop on the six-buffer
pool. -/
theorem cursor_always_valid_witness :
    0 < pool6.N_BUFF ∧
      (run pool6 Ctl.init
        (Op.start :: List.replicate 7 (Op.evt evtRequested) ++
          [Op.evt { buffer_requested := true, buffer_released := 0, error := 1 }, Op.stop])
        ).g_buffsel < pool6.N_BUFF :=
  ⟨by decide, cursor_always_valid pool6 (by decide) _⟩

/-! ## Hex dump: auxiliary facts and checked property -/

theorem dump_inner_eq (buff : List (List Nat)) (i : Nat) (row : List Nat)
    (hrow : buff[i]? = some row) (k j : Nat) (out : List Out) (hk : j + k ≤ row.length) :
    dump_inner buff i j k out = some (out ++ layoutSamples j ((row.drop j).take k)) := by
  induction k generalizing j out with
  | zero => simp [dump_inner, layoutSamples]
  | succ k ih =>
    have hj : j < row.length := by omega
    have hget : row[j]? = some row[j] := List.getElem?_eq_getElem hj
    have hdrop : row.drop j = row[j] :: row.drop (j + 1) := List.drop_eq_getElem_cons hj
    simp only [dump_inner, hrow, hget]
    rw [ih (j + 1) _ (by omega), hdrop]
    simp only [List.take_succ_cons, layoutSamples]
    split <;> simp

theorem dump_outer_eq (buff : List (List Nat)) (len n : Nat) (k i : Nat) (out : List Out)
    (hk : i + k ≤ n) (hn : n ≤ buff.length) (hlen : ∀ row ∈ buff.take n, len / 2 ≤ row.length) :
    dump_outer buff len i k out =
      some (out ++ layoutBuffers (((buff.drop i).take k).map (fun row => row.take (len / 2)))) := by
  induction k generalizing i out with
  | zero => simp [dump_outer, layoutBuffers]
  | succ k ih =>
    have hi : i < buff.length := by omega
    have hget : buff[i]? = some buff[i] := List.getElem?_eq_getElem hi
    have hdrop : buff.drop i = buff[i] :: buff.drop (i + 1) := List.drop_eq_getElem_cons hi
    have hrl : 0 + len / 2 ≤ buff[i].length := by
      have hmem : buff[i] ∈ buff.take n := by
        rw [List.mem_take_iff_getElem]
        exact ⟨i, by rw [min_eq_left hn]; omega, rfl⟩
      simpa using hlen _ hmem
    simp only [dump_outer]
    rw [dump_inner_eq buff i buff[i] hget (len / 2) 0 out hrl]
    simp only
    rw [ih (i + 1) _ (by omega), hdrop]
    simp [layoutBuffers]

theorem printedSamples_append (a b : List Out) :
    printedSamples (a ++ b) = printedSamples a ++ printedSamples b := by
  simp [printedSamples]

theorem printedSamples_layoutSamples (j : Nat) (vs : List Nat) :
    printedSamples (layoutSamples j vs) = vs := by
  induction vs generalizing j with
  | nil => simp [layoutSamples, printedSamples]
  | cons v vs ih =>
    simp only [layoutSamples, printedSamples_append, ih]
    split <;> simp [printedSamples]

theorem printedSamples_layoutBuffers (rows : List (List Nat)) :
    printedSamples (layoutBuffers rows) = rows.flatten := by
  induction rows with
  | nil => simp [layoutBuffers, printedSamples]
  | cons row rows ih =>
    simp only [layoutBuffers, printedSamples_append, ih, printedSamples_layoutSamples]
    simp [printedSamples]

/-- C9: when `buff` holds at least `n` buffers of at least `len / 2` samples each,
`dump_buffer_n` writes the start marker, then for each of the first `n` buffers in order its
first `len / 2` samples in order, each sample once, with a line break before every sample
whose in-buffer index is a multiple of 8 (and one after each buffer), then the end marker. -/
theorem dump_buffer_n_layout (buff : List (List Nat)) (len n : Nat)
    (hn : n ≤ buff.length) (hlen : ∀ row ∈ buff.take n, len / 2 ≤ row.length) :
    dump_buffer_n buff len n =
        some ([startMarker] ++ layoutBuffers (requestedSamples buff len n) ++ [endMarker]) ∧
      printedSamples (layoutBuffers (requestedSamples buff len n)) =
        (requestedSamples buff len n).flatten := by
  refine ⟨?_, printedSamples_layoutBuffers _⟩
  unfold dump_buffer_n
  rw [dump_outer_eq buff len n n 0 [startMarker] (by omega) hn hlen]
  simp [requestedSamples]

/-- C9 at a concrete input: two buffers of nine samples, `len` = 18 bytes. -/
theorem dump_buffer_n_layout_witness :
    dump_buffer_n [[1, 2, 3, 4, 5, 6, 7, 8, 9], [10, 11, 12, 13, 14, 15, 16, 17, 18]] 18 2 =
      some [startMarker,
        Out.putchar '\n', Out.printf_hex 1, Out.printf_hex 2, Out.printf_hex 3,
        Out.printf_hex 4, Out.printf_hex 5, Out.printf_hex 6, Out.printf_hex 7,
        Out.printf_hex 8, Out.putchar '\n', Out.printf_hex 9, Out.putchar '\n',
        Out.putchar '\n', Out.printf_hex 10, Out.printf_hex 11, Out.printf_hex 12,
        Out.printf_hex 13, Out.printf_hex 14, Out.printf_hex 15, Out.printf_hex 16,
        Out.printf_hex 17, Out.putchar '\n', Out.printf_hex 18, Out.putchar '\n',
        endMarker] :=
  (dump_buffer_n_layout [[1, 2, 3, 4, 5, 6, 7, 8, 9], [10, 11, 12, 13, 14, 15, 16, 17, 18]]
    18 2 (by decide) (by decide)).1.trans (by decide)

/-! ## Amplification: rounding facts -/

theorem roundHalfEven_intCast (m : Int) : roundHalfEven (m : ℚ) = m := by
  unfold roundHalfEven
  rw [Int.floor_intCast]
  simp

theorem F32.round_eq_self (q : ℚ) (m : Int) (hm : q / 2 ^ F32.ulpExp q = m)
    (hb : |q| < 2 ^ 128) : F32.round q = F32.fin q := by
  have hpos : (0 : ℚ) < 2 ^ F32.ulpExp q := zpow_pos (by norm_num) _
  have hr : ((roundHalfEven (q / 2 ^ F32.ulpExp q) : Int) : ℚ) * 2 ^ F32.ulpExp q = q := by
    rw [hm, roundHalfEven_intCast, ← hm]
    field_simp
  have hlt := abs_lt.mp hb
  unfold F32.round
  simp only [hr]
  rw [if_neg (by linarith [hlt.2]), if_neg (by linarith [hlt.1])]

theorem F32.ulpExp_nonpos (q : ℚ) (hq : |q| < 2 ^ 24) : F32.ulpExp q ≤ 0 := by
  unfold F32.ulpExp
  have hlog : Int.log 2 |q| < 24 := by
    rcases eq_or_lt_of_le (abs_nonneg q) with h0 | hpos
    · rw [← h0, Int.log_zero_right]; norm_num
    · rw [← Int.lt_zpow_iff_log_lt (by norm_num) hpos]
      have h24 : ((2 : ℕ) : ℚ) ^ (24 : Int) = 2 ^ 24 := by norm_num
      rw [h24]; exact hq
  have : max (Int.log 2 |q|) (-126) ≤ 23 := max_le (by omega) (by norm_num)
  omega

theorem F32.round_intCast (n : Int) (hn : |n| < 2 ^ 24) : F32.round (n : ℚ) = F32.fin n := by
  have hq : |(n : ℚ)| < 2 ^ 24 := by
    have : ((|n| : Int) : ℚ) < ((2 ^ 24 : Int) : ℚ) := Int.cast_lt.mpr hn
    simpa using this
  have hue := F32.ulpExp_nonpos (n : ℚ) hq
  obtain ⟨k, hk⟩ : ∃ k : Nat, F32.ulpExp (n : ℚ) = -(k : Int) :=
    ⟨(-F32.ulpExp (n : ℚ)).toNat, by omega⟩
  refine F32.round_eq_self (n : ℚ) (n * 2 ^ k) ?_ (lt_trans hq (by norm_num))
  rw [hk, zpow_neg, zpow_natCast]
  push_cast
  field_simp

theorem F32.ofInt_small (n : Int) (hn : |n| < 2 ^ 24) : F32.ofInt n = F32.fin n :=
  F32.round_intCast n hn

theorem F32.round_of_eq_int (q : ℚ) (n : Int) (h : q = n) (hn : |n| < 2 ^ 24) :
    F32.round q = F32.fin n := by
  rw [h]; exact F32.round_intCast n hn

theorem floor_le_roundHalfEven (x : ℚ) : ⌊x⌋ ≤ roundHalfEven x := by
  unfold roundHalfEven
  split_ifs <;> omega

theorem F32.one_not_gt_round (q : ℚ) (hq : 1 ≤ q) :
    F32.gt (F32.fin 1) (F32.round q) = false := by
  have hq0 : (0 : ℚ) < q := by linarith
  have habs : |q| = q := abs_of_pos hq0
  have hlog0 : 0 ≤ Int.log 2 q := by
    rw [← Int.zpow_le_iff_le_log (by norm_num) hq0]
    simpa using hq
  have hue : F32.ulpExp q = Int.log 2 q - 23 := by
    unfold F32.ulpExp
    rw [habs, max_eq_left (by omega)]
  have hle : (2 : ℚ) ^ Int.log 2 q ≤ q := by
    have := Int.zpow_log_le_self (R := ℚ) (b := 2) (by norm_num) hq0
    simpa using this
  have hupos : (0 : ℚ) < 2 ^ F32.ulpExp q := zpow_pos (by norm_num) _
  have hsplit : (2 : ℚ) ^ Int.log 2 q = 2 ^ (23 : Nat) * 2 ^ F32.ulpExp q := by
    rw [hue, ← zpow_natCast, ← zpow_add₀ (by norm_num)]
    congr 1
    push_cast
    ring
  have hx : (((2 ^ 23 : Int)) : ℚ) ≤ q / 2 ^ F32.ulpExp q := by
    rw [le_div_iff₀ hupos]
    have h : (2 : ℚ) ^ (23 : Nat) * 2 ^ F32.ulpExp q ≤ q := hsplit ▸ hle
    push_cast
    norm_num at h ⊢
    exact h
  have hfl : (2 ^ 23 : Int) ≤ roundHalfEven (q / 2 ^ F32.ulpExp q) :=
    le_trans (Int.le_floor.mpr hx) (floor_le_roundHalfEven _)
  have hr : (1 : ℚ) ≤ (roundHalfEven (q / 2 ^ F32.ulpExp q) : ℚ) * 2 ^ F32.ulpExp q := by
    have h1 : ((2 ^ 23 : Int) : ℚ) ≤ (roundHalfEven (q / 2 ^ F32.ulpExp q) : ℚ) :=
      Int.cast_le.mpr hfl
    have h2 : (2 : ℚ) ^ (23 : Nat) * 2 ^ F32.ulpExp q ≤
        (roundHalfEven (q / 2 ^ F32.ulpExp q) : ℚ) * 2 ^ F32.ulpExp q := by
      apply mul_le_mul_of_nonneg_right _ hupos.le
      simpa using h1
    have h3 : (1 : ℚ) ≤ 2 ^ Int.log 2 q := by
      have := zpow_le_zpow_right₀ (a := (2 : ℚ)) (by norm_num) hlog0
      simpa using this
    linarith [hsplit]
  unfold F32.round
  simp only
  split_ifs with h1 h2
  · rfl
  · exfalso
    linarith
  · simp only [F32.gt, decide_eq_false_iff_not, not_lt]
    exact hr

theorem truncToInt_intCast (n : Int) : truncToInt (n : ℚ) = n := by
  unfold truncToInt
  split <;> simp

/-! ## Amplification: the loops -/

theorem set_getElem_same (l : List Int) (i : Nat) (h : i < l.length) : l.set i l[i] = l := by
  induction l generalizing i with
  | nil => simp at h
  | cons a t ih =>
    cases i with
    | zero => simp
    | succ j =>
      simp only [List.set_cons_succ, List.getElem_cons_succ]
      rw [ih j (by simpa using h)]

theorem pcm_amp_scan_overrun (k i : Nat) (samples : List Int) (largest : Int)
    (hi : i ≤ samples.length) (hk : samples.length < i + k) :
    pcm_amp_scan i k samples largest = Except.error (Fault.out_of_bounds samples.length) := by
  induction k generalizing i samples largest with
  | zero => omega
  | succ k ih =>
    unfold pcm_amp_scan
    by_cases hlt : i < samples.length
    · rw [List.getElem?_eq_getElem hlt]
      simp only
      have hlen : (if samples[i] = INT16_MIN then
          samples.set i (if samples[i] = INT16_MIN then samples[i] + 1 else samples[i])
          else samples).length = samples.length := by
        split <;> simp
      rw [← hlen]
      exact ih (i + 1) _ _ (by rw [hlen]; omega) (by rw [hlen]; omega)
    · have hieq : i = samples.length := by omega
      rw [List.getElem?_eq_none (by omega), hieq]

theorem pcm_amp_overrun (samples : List Int) (len : Nat) (mult : F32)
    (h0 : 0 < samples.length) (h : samples.length < len) :
    pcm_amp samples len mult = Except.error (Fault.out_of_bounds samples.length) := by
  unfold pcm_amp
  rw [List.getElem?_eq_getElem h0]
  simp only [pcm_amp_scan_overrun len 0 samples samples[0] (by omega) (by omega)]

theorem pcm_amp_scale_one (k i : Nat) (samples : List Int)
    (hr : ∀ x ∈ samples, INT16_MIN ≤ x ∧ x ≤ INT16_MAX) (hk : i + k ≤ samples.length) :
    pcm_amp_scale (F32.fin 1) i k samples = Except.ok samples := by
  induction k generalizing i with
  | zero => rfl
  | succ k ih =>
    have hlt : i < samples.length := by omega
    have hx := hr _ (List.getElem_mem hlt)
    simp only [INT16_MIN, INT16_MAX] at hx
    have hsmall : |samples[i]| < 2 ^ 24 := by
      rw [abs_lt]; constructor <;> omega
    unfold pcm_amp_scale
    rw [List.getElem?_eq_getElem hlt]
    simp only [F32.ofInt_small _ hsmall, F32.mul, mul_one, F32.round_intCast _ hsmall,
      F32.toInt16, truncToInt_intCast, INT16_MIN, INT16_MAX, hx.1, hx.2, and_self, if_true]
    rw [set_getElem_same]
    exact ih (i + 1) (by omega)

theorem pcm_amp_scale_step (m : ℚ) (i k : Nat) (samples : List Int) (x y : Int)
    (hx : samples[i]? = some x) (hxs : |x| < 2 ^ 24) (hy : (x : ℚ) * m = y)
    (hys : |y| < 2 ^ 24) :
    pcm_amp_scale (F32.fin m) i (k + 1) samples =
      if INT16_MIN ≤ y ∧ y ≤ INT16_MAX then pcm_amp_scale (F32.fin m) (i + 1) k (samples.set i y)
      else Except.error (Fault.not_int16 i (F32.fin y)) := by
  rw [pcm_amp_scale, hx]
  simp only [F32.ofInt_small x hxs, F32.mul, F32.round_of_eq_int _ y hy hys, F32.toInt16,
    truncToInt_intCast]
  split_ifs <;> rfl

theorem F32.div_int (a b c : Int) (hb : b ≠ 0) (hc : (a : ℚ) / b = c) (hcs : |c| < 2 ^ 24) :
    F32.div (F32.fin a) (F32.fin b) = F32.fin c := by
  have hb0 : (b : ℚ) ≠ 0 := Int.cast_ne_zero.mpr hb
  simp only [F32.div, if_neg hb0]
  exact F32.round_of_eq_int _ c hc hcs

theorem bumpMin_idem (x : Int) : bumpMin (bumpMin x) = bumpMin x := by
  unfold bumpMin INT16_MIN
  split_ifs <;> omega

theorem pcm_amp_scan_result (k i : Nat) (samples : List Int) (l : Int)
    (hk : i + k ≤ samples.length) :
    ∃ r l1, pcm_amp_scan i k samples l = Except.ok (r, l1) ∧
      (∀ j, r[j]? = if i ≤ j ∧ j < i + k then samples[j]?.map bumpMin else samples[j]?) ∧
      (l1 = l ∨ ∃ x ∈ samples, l1 = bumpMin x) := by
  induction k generalizing i samples l with
  | zero =>
    refine ⟨samples, l, rfl, ?_, Or.inl rfl⟩
    intro j
    rw [if_neg (by omega)]
  | succ k ih =>
    have hlt : i < samples.length := by omega
    have hxmem : samples[i] ∈ samples := List.getElem_mem hlt
    have hset : ∀ j, (if samples[i] = INT16_MIN then
          samples.set i (if samples[i] = INT16_MIN then samples[i] + 1 else samples[i])
          else samples)[j]? = if i = j then some (bumpMin samples[i]) else samples[j]? := by
      intro j
      by_cases hmin : samples[i] = INT16_MIN
      · simp only [if_pos hmin, List.getElem?_set, if_pos hlt, bumpMin]
      · simp only [if_neg hmin, bumpMin]
        split_ifs with hij
        · subst hij; exact List.getElem?_eq_getElem hlt
        · rfl
    have hlen : (if samples[i] = INT16_MIN then
          samples.set i (if samples[i] = INT16_MIN then samples[i] + 1 else samples[i])
          else samples).length = samples.length := by
      split <;> simp
    have hmem : ∀ y ∈ (if samples[i] = INT16_MIN then
          samples.set i (if samples[i] = INT16_MIN then samples[i] + 1 else samples[i])
          else samples), y = bumpMin samples[i] ∨ y ∈ samples := by
      intro y hy
      by_cases hmin : samples[i] = INT16_MIN
      · rw [if_pos hmin] at hy
        rcases List.mem_or_eq_of_mem_set hy with h | h
        · exact Or.inr h
        · exact Or.inl (by rw [h]; rfl)
      · rw [if_neg hmin] at hy
        exact Or.inr hy
    unfold pcm_amp_scan
    rw [List.getElem?_eq_getElem hlt]
    simp only
    obtain ⟨r, l1, hrun, hr, hl1⟩ := ih (i + 1) _
      (if |if samples[i] = INT16_MIN then samples[i] + 1 else samples[i]| > l then
        (if samples[i] = INT16_MIN then samples[i] + 1 else samples[i]) else l)
      (by rw [hlen]; omega)
    refine ⟨r, l1, hrun, ?_, ?_⟩
    · intro j
      rw [hr j, hset j]
      by_cases hij : i = j
      · subst hij
        rw [if_neg (by omega), if_pos rfl, if_pos (by omega), List.getElem?_eq_getElem hlt]
        rfl
      · rw [if_neg hij]
        by_cases hc : i + 1 ≤ j ∧ j < i + 1 + k
        · rw [if_pos hc, if_pos (by omega)]
        · rw [if_neg hc, if_neg (by omega)]
    · rcases hl1 with h | ⟨y, hy, h⟩
      · have h1 : l1 = if |bumpMin samples[i]| > l then bumpMin samples[i] else l := h
        split_ifs at h1
        · exact Or.inr ⟨samples[i], hxmem, h1⟩
        · exact Or.inl h1
      · rcases hmem y hy with hy1 | hy1
        · exact Or.inr ⟨samples[i], hxmem, by rw [h, hy1, bumpMin_idem]⟩
        · exact Or.inr ⟨y, hy1, h⟩

theorem pcm_amp_scan_whole (samples : List Int) (l : Int) :
    ∃ l1, pcm_amp_scan 0 samples.length samples l = Except.ok (samples.map bumpMin, l1) ∧
      (l1 = l ∨ ∃ x ∈ samples, l1 = bumpMin x) := by
  obtain ⟨r, l1, hrun, hr, hl1⟩ := pcm_amp_scan_result samples.length 0 samples l (by omega)
  have hreq : r = samples.map bumpMin := by
    apply List.ext_getElem?
    intro j
    rw [hr j, List.getElem?_map]
    by_cases hj : j < samples.length
    · rw [if_pos (by omega)]
    · rw [if_neg (by omega), List.getElem?_eq_none (by omega)]
      rfl
  exact ⟨l1, by rw [hrun, hreq], hl1⟩

theorem bumpMin_range (x : Int) (hx : INT16_MIN ≤ x ∧ x ≤ INT16_MAX) :
    INT16_MIN ≤ bumpMin x ∧ bumpMin x ≤ INT16_MAX := by
  unfold bumpMin INT16_MIN INT16_MAX at *
  split_ifs <;> omega

/-! ## Amplification: checked properties -/

/-- C1 (the code at the failing input): on the buffer `[-2, -1]` with the multiplier
`PCM_AMP` = 100 the peak scan ends with `largest = -1`, the multiplier is clamped to
`32767 / -1 = -32767`, and the first sample is scaled to `-2 * -32767 = 65534`, which does
not fit `int16_t`. -/
theorem pcm_amp_scaled_sample_exceeds_int16 :
    peakOf [-2, -1] = Except.ok (-1) ∧
      pcm_amp [-2, -1] 2 (F32.ofInt PCM_AMP) =
        Except.error (Fault.not_int16 0 (F32.fin 65534)) ∧
      INT16_MAX < truncToInt 65534 := by
  have hscan : pcm_amp_scan 0 2 [-2, -1] (-2) = Except.ok ([-2, -1], -1) := by
    simp [pcm_amp_scan, INT16_MIN]
  have hm : F32.ofInt PCM_AMP = F32.fin 100 := by
    simpa [PCM_AMP] using F32.ofInt_small 100 (by norm_num)
  have hmax : F32.ofInt INT16_MAX = F32.fin ((32767 : Int) : ℚ) :=
    F32.ofInt_small 32767 (by norm_num)
  have hl : F32.ofInt (-1) = F32.fin ((-1 : Int) : ℚ) := F32.ofInt_small (-1) (by norm_num)
  have hdiv := F32.div_int 32767 (-1) (-32767) (by norm_num) (by norm_num) (by norm_num)
  have hstep : pcm_amp_scale (F32.fin (-32767)) 0 2 [-2, -1] =
      Except.error (Fault.not_int16 0 (F32.fin 65534)) := by
    have h := pcm_amp_scale_step (-32767) 0 1 [-2, -1] (-2) 65534 (by simp) (by norm_num)
      (by norm_num) (by norm_num)
    simpa [INT16_MIN, INT16_MAX] using h
  have htr : truncToInt 65534 = 65534 := by simpa using truncToInt_intCast 65534
  refine ⟨?_, ?_, ?_⟩
  · simp [peakOf, hscan]
  · simp only [pcm_amp, List.getElem?_cons_zero, hscan, hmax, hl, hdiv, hm]
    have hgt : F32.gt (F32.fin 100) (F32.fin ((-32767 : Int) : ℚ)) = true := by
      norm_num [F32.gt]
    rw [hgt]
    simp only [if_true]
    have hcast : ((-32767 : Int) : ℚ) = -32767 := by norm_num
    rw [hcast, hstep]
  · rw [htr]; decide

/-- C7 (as stated, refuted): with factor 1 the buffer `[32767, -32768]` comes back as
`[32767, -32767]`: the scan stores `INT16_MIN + 1` over a sample equal to `INT16_MIN`. -/
theorem pcm_amp_factor_one_changes_min_sample :
    pcm_amp [32767, -32768] 2 (F32.ofInt 1) = Except.ok [32767, -32767] ∧
      pcm_amp [32767, -32768] 2 (F32.ofInt 1) ≠ Except.ok [32767, -32768] := by
  have hscan : pcm_amp_scan 0 2 [32767, -32768] 32767 =
      Except.ok ([32767, -32767], 32767) := by
    simp [pcm_amp_scan, INT16_MIN]
  have hm : F32.ofInt 1 = F32.fin 1 := by
    simpa using F32.ofInt_small 1 (by norm_num)
  have hmax : F32.ofInt INT16_MAX = F32.fin ((32767 : Int) : ℚ) :=
    F32.ofInt_small 32767 (by norm_num)
  have hl : F32.ofInt 32767 = F32.fin ((32767 : Int) : ℚ) :=
    F32.ofInt_small 32767 (by norm_num)
  have hdiv := F32.div_int 32767 32767 1 (by norm_num) (by norm_num) (by norm_num)
  have hscale : pcm_amp_scale (F32.fin 1) 0 2 [32767, -32767] = Except.ok [32767, -32767] :=
    pcm_amp_scale_one 2 0 [32767, -32767] (by simp [INT16_MIN, INT16_MAX]) (by simp)
  have hval : pcm_amp [32767, -32768] 2 (F32.ofInt 1) = Except.ok [32767, -32767] := by
    simp only [pcm_amp, List.getElem?_cons_zero, hscan, hmax, hl, hdiv, hm]
    have hgt : F32.gt (F32.fin 1) (F32.fin ((1 : Int) : ℚ)) = false := by
      norm_num [F32.gt]
    rw [hgt]
    simpa using hscale
  refine ⟨hval, ?_⟩
  rw [hval]
  intro h
  have h2 := Except.ok.inj h
  revert h2
  decide

/-- C7 (amended): for every buffer of `int16_t` samples on which the peak scan ends with a
non-negative `largest`, `pcm_amp` with factor 1 over the whole buffer returns the samples
as they were, except that each sample equal to `INT16_MIN` has become `INT16_MIN + 1`; if no
sample equals `INT16_MIN` the buffer is unchanged. -/
theorem pcm_amp_factor_one (samples : List Int) (largest : Int)
    (hr : ∀ x ∈ samples, INT16_MIN ≤ x ∧ x ≤ INT16_MAX)
    (hpeak : peakOf samples = Except.ok largest) (hl : 0 ≤ largest) :
    pcm_amp samples samples.length (F32.ofInt 1) = Except.ok (samples.map bumpMin) ∧
      ((∀ x ∈ samples, x ≠ INT16_MIN) →
        pcm_amp samples samples.length (F32.ofInt 1) = Except.ok samples) := by
  cases samples with
  | nil => simp [peakOf] at hpeak
  | cons a t =>
    obtain ⟨l1, hscan, hl1⟩ := pcm_amp_scan_whole (a :: t) a
    have hl1eq : l1 = largest := by
      simp only [peakOf, List.getElem?_cons_zero, hscan] at hpeak
      exact Except.ok.inj hpeak
    subst hl1eq
    have hle : l1 ≤ INT16_MAX := by
      rcases hl1 with h | ⟨x, hx, h⟩
      · rw [h]; exact (hr a (List.mem_cons_self _ _)).2
      · rw [h]; exact (bumpMin_range x (hr x hx)).2
    have hsmall : |l1| < 2 ^ 24 := by
      unfold INT16_MAX at hle
      rw [abs_lt]; constructor <;> omega
    have hm : F32.ofInt 1 = F32.fin 1 := by
      simpa using F32.ofInt_small 1 (by norm_num)
    have hmax : F32.ofInt INT16_MAX = F32.fin 32767 := by
      simpa [INT16_MAX] using F32.ofInt_small 32767 (by norm_num)
    have hgt : F32.gt (F32.fin 1) (F32.div (F32.fin 32767) (F32.fin (l1 : ℚ))) = false := by
      rcases eq_or_lt_of_le hl with h0 | hpos
      · rw [← h0]
        simp [F32.div, F32.gt]
      · have hq0 : (0 : ℚ) < (l1 : ℚ) := Int.cast_pos.mpr hpos
        have hq1 : (l1 : ℚ) ≤ 32767 := by
          have : ((l1 : Int) : ℚ) ≤ ((INT16_MAX : Int) : ℚ) := Int.cast_le.mpr hle
          simpa [INT16_MAX] using this
        simp only [F32.div, if_neg hq0.ne']
        apply F32.one_not_gt_round
        rw [le_div_iff₀ hq0]
        linarith
    have hres : pcm_amp (a :: t) (a :: t).length (F32.ofInt 1) =
        Except.ok ((a :: t).map bumpMin) := by
      simp only [pcm_amp, List.getElem?_cons_zero, hscan, hmax, F32.ofInt_small l1 hsmall, hm,
        hgt]
      have h := pcm_amp_scale_one (a :: t).length 0 ((a :: t).map bumpMin)
        (by
          intro y hy
          obtain ⟨x, hx, rfl⟩ := List.mem_map.mp hy
          exact bumpMin_range x (hr x hx))
        (by simp)
      simpa using h
    refine ⟨hres, ?_⟩
    intro hmin
    rw [hres]
    congr 1
    calc (a :: t).map bumpMin = (a :: t).map id := by
          apply List.map_congr_left
          intro x hx
          simp [bumpMin, hmin x hx]
      _ = a :: t := List.map_id _

/-- C7 (amended) at a concrete input: a buffer with negative samples whose scan ends with
`largest = 9`. -/
theorem pcm_amp_factor_one_witness :
    peakOf [3, 7, -7, 9] = Except.ok 9 ∧
      pcm_amp [3, 7, -7, 9] 4 (F32.ofInt 1) = Except.ok [3, 7, -7, 9] :=
  have hp : peakOf [3, 7, -7, 9] = Except.ok 9 := by
    simp [peakOf, pcm_amp_scan, INT16_MIN]
  ⟨hp, (pcm_amp_factor_one [3, 7, -7, 9] 9 (by simp [INT16_MIN, INT16_MAX]) hp
    (by norm_num)).2 (by simp [INT16_MIN])⟩

/-- C10 (the code at the call in `main`): a pool buffer holds `AUDIO_BLOCK_SIZE / 2` = 32000
samples, `main` passes `AUDIO_BLOCK_SIZE` = 64000 as the sample count, and for every
content of the buffer the peak scan of `pcm_amp` reaches index 32000, which is outside the
buffer. -/
theorem main_pcm_amp_reads_past_buffer (buffer : Fin bufferSamples → Int) :
    bufferSamples = 32000 ∧ AUDIO_BLOCK_SIZE = 64000 ∧
      main_pcm_amp (List.ofFn buffer) = Except.error (Fault.out_of_bounds 32000) := by
  have hb : bufferSamples = 32000 := by
    norm_num [bufferSamples, AUDIO_BLOCK_SIZE, AUDIO_SAMPLE_RATE, AUDIO_SAMPLE_SIZE]
  have hA : AUDIO_BLOCK_SIZE = 64000 := by
    norm_num [AUDIO_BLOCK_SIZE, AUDIO_SAMPLE_RATE, AUDIO_SAMPLE_SIZE]
  refine ⟨hb, hA, ?_⟩
  have hlen : (List.ofFn buffer).length = 32000 := by rw [List.length_ofFn, hb]
  have h := pcm_amp_overrun (List.ofFn buffer) AUDIO_BLOCK_SIZE (F32.ofInt PCM_AMP)
    (by omega) (by omega)
  rw [hlen] at h
  exact h
end PdmTest
